import Mathlib

set_option maxRecDepth 40000

/-!
Verification of the supbot RAG pipeline against its specification.

The Python sources are shallowly embedded as executable Lean definitions.
Strings manipulated character by character (the text normalizer) are
modelled as `List Char`; strings only compared for emptiness/blankness are
modelled as `String`.  Python exceptions are modelled with `Option`/`Except`.
External deterministic library functions with no bearing on the claims
(MD5 digests, `json.dumps` serialization, the sentence-embedding model) are
taken as parameters of the embedded functions.

Modelled character set: the Python whitespace notions (`str.strip`, the
regex class used by `re.sub`) are modelled for the six ASCII whitespace
characters; all concrete inputs used below stay inside printable ASCII,
where that model is exact.
-/

/-- The six ASCII whitespace characters stripped by Python `str.strip()`
and matched by the regex whitespace class on such input. -/
def isPyWs (c : Char) : Bool :=
  c = ' ' || c = '\t' || c = '\n' || c = '\r' || c = '\x0b' || c = '\x0c'

/-- Python truthiness test `not text or not text.strip()`: a string is blank
iff every character is whitespace (true for the empty string). -/
def pyBlank (s : String) : Bool := s.toList.all isPyWs

/-- Python `text and text.strip()` being truthy. -/
def pyNonBlank (s : String) : Bool := !(pyBlank s)

/-- One pass of `re.sub(r'\s+', ' ', text)`: every maximal run of whitespace
becomes a single space.  The boolean flag records whether the previous
character belonged to a whitespace run. -/
def collapseWsAux : Bool → List Char → List Char
  | _, [] => []
  | prevWs, c :: rest =>
    if isPyWs c then
      if prevWs then collapseWsAux true rest
      else ' ' :: collapseWsAux true rest
    else c :: collapseWsAux false rest

/-- Model of `re.sub(r'\s+', ' ', text)`. -/
def collapseWs (l : List Char) : List Char := collapseWsAux false l

/-- Removes a trailing whitespace run (the right half of `str.strip()`). -/
def dropTrailingWs : List Char → List Char
  | [] => []
  | c :: rest =>
    let r := dropTrailingWs rest
    if r = [] && isPyWs c then [] else c :: r

/-- Model of Python `str.strip()`: drop leading and trailing whitespace. -/
def pyStrip (l : List Char) : List Char := dropTrailingWs (l.dropWhile isPyWs)

/-- Digits of a decimal character reference, most significant first. -/
def entDigitsToNat (ds : List Char) : Nat :=
  ds.foldl (fun n c => n * 10 + (c.toNat - 48)) 0

/-- Parses one HTML character/entity reference right after a `&`, returning
the decoded character and the remaining input.  Models the references both
`html.unescape` and the `html.parser` charref conversion recognise, for the
named entities and decimal references exercised by this repository. -/
def parseEntity (l : List Char) : Option (Char × List Char) :=
  if l.take 4 = ['a', 'm', 'p', ';'] then some ('&', l.drop 4)
  else if l.take 3 = ['l', 't', ';'] then some ('<', l.drop 3)
  else if l.take 3 = ['g', 't', ';'] then some ('>', l.drop 3)
  else if l.take 5 = ['q', 'u', 'o', 't', ';'] then some ('"', l.drop 5)
  else
    match l with
    | '#' :: rest =>
      let ds := rest.takeWhile Char.isDigit
      if ds = [] then none
      else
        match rest.drop ds.length with
        | ';' :: rest2 => some (Char.ofNat (entDigitsToNat ds), rest2)
        | _ => none
    | _ => none

/-- Single left-to-right entity-decoding pass (fuelled; the fuel is the
input length, which suffices because every step consumes a character). -/
def decodeEntitiesAux : Nat → List Char → List Char
  | 0, l => l
  | _ + 1, [] => []
  | fuel + 1, c :: rest =>
    if c = '&' then
      match parseEntity rest with
      | some p => p.1 :: decodeEntitiesAux fuel p.2
      | none => '&' :: decodeEntitiesAux fuel rest
    else c :: decodeEntitiesAux fuel rest

/-- One decoding pass over the whole input, as performed once by
`html.unescape` and once by the `html.parser` data handling. -/
def decodeEntities (l : List Char) : List Char := decodeEntitiesAux l.length l

/-- Model of `BeautifulSoup(text, 'html.parser')` followed by removing
script/style nodes and `soup.get_text()`, restricted to inputs that contain
no `<` character: such input contains no markup at all (so the decompose
loop does nothing and the text content is the input itself), and the only
transformation performed by the parser is the conversion of character and
entity references in data (its default `convert_charrefs` behaviour). -/
def bs_get_text (l : List Char) : List Char := decodeEntities l

/-- Model of `rag_module/utils.py` `clean_text`: empty guard, HTML text
extraction, whitespace collapsing, strip, and a final `html.unescape`. -/
def clean_text (text : List Char) : List Char :=
  if text = [] then []
  else decodeEntities (pyStrip (collapseWs (bs_get_text text)))

example : clean_text ("&amp;#32;".toList) = [' '] := by decide
example : clean_text [' '] = [] := by decide
example : clean_text ("a  b".toList) = "a b".toList := by decide

lemma collapseWsAux_cons_ws_false {a : Char} {t : List Char}
    (hw : isPyWs a = true) :
    collapseWsAux false (a :: t) = ' ' :: collapseWsAux true t := by
  simp [collapseWsAux, hw]

lemma collapseWsAux_cons_ws_true {a : Char} {t : List Char}
    (hw : isPyWs a = true) :
    collapseWsAux true (a :: t) = collapseWsAux true t := by
  simp [collapseWsAux, hw]

lemma collapseWsAux_cons_nws {a : Char} {t : List Char} {b : Bool}
    (hw : isPyWs a = false) :
    collapseWsAux b (a :: t) = a :: collapseWsAux false t := by
  simp [collapseWsAux, hw]

/-- Characters of the collapsed string come from the input or are the space
substituted for a whitespace run. -/
lemma mem_collapseWsAux {c : Char} : ∀ (b : Bool) (l : List Char),
    c ∈ collapseWsAux b l → c ∈ l ∨ c = ' ' := by
  intro b l
  induction l generalizing b with
  | nil => simp [collapseWsAux]
  | cons a t ih =>
    intro h
    by_cases hw : isPyWs a
    · cases b with
      | false =>
        rw [collapseWsAux_cons_ws_false hw] at h
        rcases List.mem_cons.mp h with h1 | h1
        · exact Or.inr h1
        · rcases ih true h1 with h2 | h2
          · exact Or.inl (List.mem_cons_of_mem _ h2)
          · exact Or.inr h2
      | true =>
        rw [collapseWsAux_cons_ws_true hw] at h
        rcases ih true h with h2 | h2
        · exact Or.inl (List.mem_cons_of_mem _ h2)
        · exact Or.inr h2
    · rw [collapseWsAux_cons_nws (Bool.of_not_eq_true hw)] at h
      rcases List.mem_cons.mp h with h1 | h1
      · exact Or.inl (h1 ▸ List.mem_cons_self _ _)
      · rcases ih false h1 with h2 | h2
        · exact Or.inl (List.mem_cons_of_mem _ h2)
        · exact Or.inr h2

lemma mem_dropTrailingWs {c : Char} : ∀ l : List Char,
    c ∈ dropTrailingWs l → c ∈ l := by
  intro l
  induction l with
  | nil => simp [dropTrailingWs]
  | cons a t ih =>
    intro h
    simp only [dropTrailingWs] at h
    by_cases hc : dropTrailingWs t = [] ∧ isPyWs a
    · rw [if_pos (by simp [hc.1, hc.2])] at h
      simp at h
    · rw [if_neg (by intro hb; simp at hb; exact hc ⟨hb.1, hb.2⟩)] at h
      rcases List.mem_cons.mp h with h | h
      · exact h ▸ List.mem_cons_self _ _
      · exact List.mem_cons_of_mem _ (ih h)

lemma mem_dropWhileWs {c : Char} {p : Char → Bool} : ∀ l : List Char,
    c ∈ l.dropWhile p → c ∈ l := by
  intro l
  induction l with
  | nil => simp
  | cons a t ih =>
    intro h
    by_cases hp : p a
    · simp only [List.dropWhile_cons, hp, if_true] at h
      exact List.mem_cons_of_mem _ (ih h)
    · simpa [List.dropWhile_cons, hp] using h

lemma mem_pyStrip {c : Char} {l : List Char} (h : c ∈ pyStrip l) : c ∈ l :=
  mem_dropWhileWs l (mem_dropTrailingWs _ h)

/-- An input without ampersands is left unchanged by the decoding pass. -/
lemma decodeEntitiesAux_id : ∀ (fuel : Nat) (l : List Char),
    (∀ c ∈ l, c ≠ '&') → decodeEntitiesAux fuel l = l := by
  intro fuel
  induction fuel with
  | zero => intro l _; rfl
  | succ f ih =>
    intro l hl
    cases l with
    | nil => rfl
    | cons c rest =>
      have hc : c ≠ '&' := hl c (List.mem_cons_self _ _)
      simp only [decodeEntitiesAux, hc, if_false]
      rw [ih rest fun d hd => hl d (List.mem_cons_of_mem _ hd)]

lemma decodeEntities_id {l : List Char} (h : ∀ c ∈ l, c ≠ '&') :
    decodeEntities l = l :=
  decodeEntitiesAux_id _ l h

/-- No two adjacent whitespace characters. -/
def noAdjWs : List Char → Bool
  | [] => true
  | [_] => true
  | a :: b :: rest => (!(isPyWs a && isPyWs b)) && noAdjWs (b :: rest)

/-- Every whitespace character is a plain space. -/
def wsOk (l : List Char) : Prop := ∀ c ∈ l, isPyWs c = true → c = ' '

lemma noAdjWs_tail {a : Char} {l : List Char} (h : noAdjWs (a :: l) = true) :
    noAdjWs l = true := by
  cases l with
  | nil => rfl
  | cons b t => exact (Bool.and_elim_right h)

lemma wsOk_collapseWsAux : ∀ (b : Bool) (l : List Char), wsOk (collapseWsAux b l) := by
  intro b l
  induction l generalizing b with
  | nil => intro c hc; simp [collapseWsAux] at hc
  | cons a t ih =>
    intro c hc hcw
    by_cases hw : isPyWs a
    · cases b with
      | false =>
        rw [collapseWsAux_cons_ws_false hw] at hc
        rcases List.mem_cons.mp hc with h1 | h1
        · exact h1
        · exact ih true c h1 hcw
      | true =>
        rw [collapseWsAux_cons_ws_true hw] at hc
        exact ih true c hc hcw
    · rw [collapseWsAux_cons_nws (Bool.of_not_eq_true hw)] at hc
      rcases List.mem_cons.mp hc with h1 | h1
      · exact absurd (h1 ▸ hcw) (by simpa using hw)
      · exact ih false c h1 hcw

/-- The collapse pass with the flag set never emits a leading whitespace
character. -/
lemma collapseWsAux_true_head : ∀ (l : List Char) (c : Char) (t : List Char),
    collapseWsAux true l = c :: t → isPyWs c = false := by
  intro l
  induction l with
  | nil => intro c t h; simp [collapseWsAux] at h
  | cons a r ih =>
    intro c t h
    by_cases hw : isPyWs a
    · rw [collapseWsAux_cons_ws_true hw] at h
      exact ih c t h
    · rw [collapseWsAux_cons_nws (Bool.of_not_eq_true hw)] at h
      cases h
      exact Bool.of_not_eq_true hw

lemma noAdjWs_cons_of_head {a : Char} {l : List Char}
    (hl : noAdjWs l = true)
    (hhead : ∀ b t, l = b :: t → (isPyWs a && isPyWs b) = false) :
    noAdjWs (a :: l) = true := by
  cases l with
  | nil => rfl
  | cons b t =>
    have hab := hhead b t rfl
    simp [noAdjWs, hab, hl]

lemma noAdjWs_collapseWsAux : ∀ (b : Bool) (l : List Char),
    noAdjWs (collapseWsAux b l) = true := by
  intro b l
  induction l generalizing b with
  | nil => rfl
  | cons a t ih =>
    by_cases hw : isPyWs a
    · cases b with
      | false =>
        rw [collapseWsAux_cons_ws_false hw]
        refine noAdjWs_cons_of_head (ih true) ?_
        intro b' t' hb
        have hb' : isPyWs b' = false := collapseWsAux_true_head t b' t' hb
        simp [hb']
      | true =>
        rw [collapseWsAux_cons_ws_true hw]
        exact ih true
    · rw [collapseWsAux_cons_nws (Bool.of_not_eq_true hw)]
      refine noAdjWs_cons_of_head (ih false) ?_
      intro b' t' _
      simp [Bool.of_not_eq_true hw]

/-- On a string already in collapsed form the collapse pass is the
identity. -/
lemma collapseWsAux_fixed : ∀ l : List Char,
    wsOk l → noAdjWs l = true → collapseWsAux false l = l := by
  intro l
  induction l with
  | nil => intro _ _; rfl
  | cons a t ih =>
    intro hws hadj
    by_cases hw : isPyWs a
    · have ha : a = ' ' := hws a (List.mem_cons_self _ _) hw
      rw [collapseWsAux_cons_ws_false hw]
      have htt : collapseWsAux true t = t →
          ' ' :: collapseWsAux true t = a :: t := by
        intro he; rw [he, ha]
      refine htt ?_
      cases t with
      | nil => rfl
      | cons b r =>
        have h1 : (isPyWs a && isPyWs b) = false := by
          have h0 := hadj
          simp only [noAdjWs, Bool.and_eq_true, Bool.not_eq_true'] at h0
          exact h0.1
        have h2 : noAdjWs (b :: r) = true := noAdjWs_tail hadj
        have hb : isPyWs b = false := by
          rcases Bool.and_eq_false_iff.mp h1 with h3 | h3
          · exact absurd hw (by simp [h3])
          · exact h3
        have hrec := ih (fun c hc hcw => hws c (List.mem_cons_of_mem _ hc) hcw) h2
        rw [collapseWsAux_cons_nws hb] at hrec ⊢
        exact hrec
    · rw [collapseWsAux_cons_nws (Bool.of_not_eq_true hw)]
      have hrec := ih (fun c hc hcw => hws c (List.mem_cons_of_mem _ hc) hcw)
        (noAdjWs_tail hadj)
      exact congrArg (a :: ·) hrec

/-- Whether the last character of the list is whitespace. -/
def lastIsWs : List Char → Bool
  | [] => false
  | [c] => isPyWs c
  | _ :: b :: rest => lastIsWs (b :: rest)

lemma dropTrailingWs_cons (a : Char) (t : List Char) :
    dropTrailingWs (a :: t) =
      if dropTrailingWs t = [] && isPyWs a then [] else a :: dropTrailingWs t :=
  rfl

lemma dropTrailingWs_shape (a : Char) (l : List Char) :
    dropTrailingWs (a :: l) = [] ∨
      dropTrailingWs (a :: l) = a :: dropTrailingWs l := by
  rw [dropTrailingWs_cons]
  by_cases hc : (dropTrailingWs l = [] && isPyWs a) = true
  · left; rw [if_pos hc]
  · right; rw [if_neg hc]

lemma lastIsWs_dropTrailingWs : ∀ l : List Char,
    lastIsWs (dropTrailingWs l) = false := by
  intro l
  induction l with
  | nil => rfl
  | cons a t ih =>
    rw [dropTrailingWs_cons]
    by_cases hc : (dropTrailingWs t = [] && isPyWs a) = true
    · rw [if_pos hc]; rfl
    · rw [if_neg hc]
      cases hr : dropTrailingWs t with
      | nil =>
        by_cases hw : isPyWs a
        · exact absurd (by simp [hr, hw]) hc
        · simpa [lastIsWs] using Bool.of_not_eq_true hw
      | cons b r =>
        have hlast := ih
        rw [hr] at hlast
        simpa [lastIsWs] using hlast

lemma dropTrailingWs_fixed : ∀ l : List Char,
    lastIsWs l = false → dropTrailingWs l = l := by
  intro l
  induction l with
  | nil => intro _; rfl
  | cons a t ih =>
    intro h
    cases t with
    | nil =>
      have ha : isPyWs a = false := by simpa [lastIsWs] using h
      simp [dropTrailingWs_cons, ha, dropTrailingWs]
    | cons b r =>
      have ht : lastIsWs (b :: r) = false := by simpa [lastIsWs] using h
      have hrec := ih ht
      rw [dropTrailingWs_cons]
      simp [hrec]

lemma dropWhile_fixed_of_head {p : Char → Bool} : ∀ l : List Char,
    (∀ c t, l = c :: t → p c = false) → l.dropWhile p = l := by
  intro l h
  cases l with
  | nil => rfl
  | cons a t => simp [List.dropWhile_cons, h a t rfl]

lemma head_dropWhileWs {p : Char → Bool} : ∀ (l : List Char) (c : Char)
    (t : List Char), l.dropWhile p = c :: t → p c = false := by
  intro l
  induction l with
  | nil => intro c t h; simp at h
  | cons a r ih =>
    intro c t h
    by_cases hp : p a
    · rw [List.dropWhile_cons, if_pos hp] at h
      exact ih c t h
    · rw [List.dropWhile_cons, if_neg hp] at h
      cases h
      exact Bool.of_not_eq_true hp

lemma head_dropTrailingWs (l : List Char) (c : Char) (t : List Char)
    (h : dropTrailingWs l = c :: t) : ∃ t2, l = c :: t2 := by
  cases l with
  | nil => simp [dropTrailingWs] at h
  | cons a r =>
    rcases dropTrailingWs_shape a r with h2 | h2
    · rw [h2] at h; exact absurd h (by simp)
    · rw [h2] at h
      injection h with h3 _
      exact ⟨r, by rw [h3]⟩

lemma noAdjWs_dropWhile {p : Char → Bool} : ∀ l : List Char,
    noAdjWs l = true → noAdjWs (l.dropWhile p) = true := by
  intro l
  induction l with
  | nil => intro _; rfl
  | cons a t ih =>
    intro h
    by_cases hp : p a
    · rw [List.dropWhile_cons, if_pos hp]
      exact ih (noAdjWs_tail h)
    · rwa [List.dropWhile_cons, if_neg hp]

lemma noAdjWs_dropTrailingWs : ∀ l : List Char,
    noAdjWs l = true → noAdjWs (dropTrailingWs l) = true := by
  intro l
  induction l with
  | nil => intro _; rfl
  | cons a t ih =>
    intro h
    rcases dropTrailingWs_shape a t with h2 | h2
    · rw [h2]; rfl
    · rw [h2]
      refine noAdjWs_cons_of_head (ih (noAdjWs_tail h)) ?_
      intro b r hbr
      obtain ⟨t2, ht2⟩ := head_dropTrailingWs t b r hbr
      subst ht2
      have h0 := h
      simp only [noAdjWs, Bool.and_eq_true, Bool.not_eq_true'] at h0
      exact h0.1

lemma mem_cleanCore {c : Char} {x : List Char}
    (h : c ∈ pyStrip (collapseWs x)) : c ∈ x ∨ c = ' ' :=
  mem_collapseWsAux false x (mem_pyStrip h)

lemma pyStrip_fixed (l : List Char)
    (hhead : ∀ c t, l = c :: t → isPyWs c = false)
    (hlast : lastIsWs l = false) : pyStrip l = l := by
  rw [pyStrip, dropWhile_fixed_of_head l hhead, dropTrailingWs_fixed l hlast]

/-- Collapse-then-strip is idempotent. -/
lemma cleanCore_idem (x : List Char) :
    pyStrip (collapseWs (pyStrip (collapseWs x))) = pyStrip (collapseWs x) := by
  set y := pyStrip (collapseWs x) with hy
  have hws : wsOk y := fun c hc hcw =>
    wsOk_collapseWsAux false x c (mem_pyStrip (hy ▸ hc)) hcw
  have hadj : noAdjWs y = true :=
    noAdjWs_dropTrailingWs _
      (noAdjWs_dropWhile _ (noAdjWs_collapseWsAux false x))
  have hcol : collapseWs y = y := collapseWsAux_fixed y hws hadj
  have hhead : ∀ c t, y = c :: t → isPyWs c = false := by
    intro c t hct
    obtain ⟨t2, ht2⟩ := head_dropTrailingWs _ c t hct
    exact head_dropWhileWs _ c t2 ht2
  have hlast : lastIsWs y = false := lastIsWs_dropTrailingWs _
  rw [hcol, pyStrip_fixed y hhead hlast]

/-- C6 (amended).  `clean_text ""` is `""`.  Idempotence fails in general
(see the counterexample) because entity references are decoded once more on
every pass and the final `html.unescape` runs after the strip; it does hold
on inputs free of the HTML-active characters `&` and `<`. -/
theorem clean_text_empty_and_idempotent_on_plain :
    clean_text [] = [] ∧
    ∀ x : List Char, '&' ∉ x → '<' ∉ x →
      clean_text (clean_text x) = clean_text x := by
  refine ⟨rfl, ?_⟩
  intro x hamp _
  by_cases hx : x = []
  · subst hx; rfl
  · have hAmpX : ∀ c ∈ x, c ≠ '&' := fun c hc he => hamp (he ▸ hc)
    have hclean : clean_text x = pyStrip (collapseWs x) := by
      rw [clean_text, if_neg hx, bs_get_text, decodeEntities_id hAmpX,
        decodeEntities_id]
      intro c hc
      rcases mem_cleanCore hc with h1 | h1
      · exact hAmpX c h1
      · simp [h1]
    rw [hclean]
    by_cases hy : pyStrip (collapseWs x) = []
    · rw [hy]; rfl
    · have hAmpY : ∀ c ∈ pyStrip (collapseWs x), c ≠ '&' := by
        intro c hc
        rcases mem_cleanCore hc with h1 | h1
        · exact hAmpX c h1
        · simp [h1]
      rw [clean_text, if_neg hy, bs_get_text, decodeEntities_id hAmpY,
        cleanCore_idem, decodeEntities_id hAmpY]

/-- C6 counterexample: `clean_text` is not idempotent.  On input
`"&amp;#32;"` the first pass decodes `&amp;` (in the HTML parse) and then
`&#32;` (in the final unescape, after stripping), leaving a single space;
the second pass strips that space away. -/
theorem clean_text_not_idempotent_cex :
    clean_text ("&amp;#32;".toList) = [' '] ∧
    clean_text (clean_text ("&amp;#32;".toList)) = [] ∧
    clean_text (clean_text ("&amp;#32;".toList)) ≠
      clean_text ("&amp;#32;".toList) := by
  refine ⟨by decide, by decide, by decide⟩

/-- Witness for the amended C6 theorem at a concrete ampersand-free input. -/
theorem clean_text_idempotent_witness :
    '&' ∉ ("a  b c".toList) ∧ '<' ∉ ("a  b c".toList) ∧
    clean_text (clean_text ("a  b c".toList)) = clean_text ("a  b c".toList) :=
  ⟨by decide, by decide,
    clean_text_empty_and_idempotent_on_plain.2 _ (by decide) (by decide)⟩

lemma mem_of_getLast?_eq {α : Type} : ∀ {l : List α} {a : α},
    l.getLast? = some a → a ∈ l := by
  intro l
  induction l with
  | nil => intro a h; simp at h
  | cons x t ih =>
    intro a h
    cases t with
    | nil =>
      simp only [List.getLast?_singleton, Option.some.injEq] at h
      simp [h]
    | cons y r =>
      rw [List.getLast?_cons_cons] at h
      exact List.mem_cons_of_mem _ (ih h)

/-- Python slice/`rfind` index normalization: a negative index counts from
the end (clamped at 0), a non-negative one is clamped at the length. -/
def pyNormIdx (i : Int) (len : Nat) : Nat :=
  if i < 0 then ((len : Int) + i).toNat else min i.toNat len

/-- Model of Python `text.rfind(ch, a, b)` restricted to its found/not-found
content: the highest position of `ch` inside the normalized range. -/
def pyRfind (l : List Char) (ch : Char) (a b : Int) : Option Nat :=
  ((List.range (pyNormIdx b l.length)).filter
    (fun p => decide (pyNormIdx a l.length ≤ p) &&
      decide (l.get? p = some ch))).getLast?

/-- Model of the Python slice `text[a:b]`. -/
def pySlice (l : List Char) (a b : Int) : List Char :=
  (l.take (pyNormIdx b l.length)).drop (pyNormIdx a l.length)

/-- The chunk end position computed by one iteration of
`rag_module/utils.py` `chunk_text`: `end = start + max_chunk_size`, pulled
back to just after the last period found in the final 200 characters of the
window, when the window stops short of the end of the text. -/
def chunkEnd (text : List Char) (maxSz : Int) (start : Int) : Int :=
  let e0 := start + maxSz
  if e0 < (text.length : Int) then
    match pyRfind text '.' (e0 - 200) e0 with
    | some p => (p : Int) + 1
    | none => e0
  else e0

/-- Fuelled model of the `while start < len(text)` loop of `chunk_text`.
Running out of fuel yields `none`; the loop terminates on an input exactly
when some fuel returns `some`.  The trailing `if start >= len(text): break`
of the source re-tests the same condition as the loop header, so the loop
is modelled with the header test only. -/
def chunkLoopF (text : List Char) (maxSz ov : Int) : Nat → Int → Option (List (List Char))
  | 0, start => if (text.length : Int) ≤ start then some [] else none
  | fuel + 1, start =>
    if (text.length : Int) ≤ start then some []
    else
      let e := chunkEnd text maxSz start
      let chunk := pyStrip (pySlice text start e)
      match chunkLoopF text maxSz ov fuel (e - ov) with
      | none => none
      | some cs => some (if chunk = [] then cs else chunk :: cs)

/-- Model of `rag_module/utils.py` `chunk_text` (fuelled). -/
def chunk_text (text : List Char) (maxSz ov : Int) (fuel : Nat) :
    Option (List (List Char)) :=
  if (text.length : Int) ≤ maxSz then some [text]
  else chunkLoopF text maxSz ov fuel 0

lemma chunkLoopF_succ (text : List Char) (maxSz ov : Int) (fuel : Nat)
    (start : Int) (hlt : ¬ ((text.length : Int) ≤ start)) :
    chunkLoopF text maxSz ov (fuel + 1) start =
      match chunkLoopF text maxSz ov fuel (chunkEnd text maxSz start - ov) with
      | none => none
      | some cs =>
        some (if pyStrip (pySlice text start (chunkEnd text maxSz start)) = []
              then cs
              else pyStrip (pySlice text start (chunkEnd text maxSz start)) :: cs) := by
  rw [chunkLoopF, if_neg hlt]

/-- The 201-character text on which the chunking loop never terminates with
window 150 and overlap 100: a period at index 149 keeps pulling the window
end back to 150, so the cursor stays at 50 forever. -/
def loopText : List Char := List.replicate 149 'a' ++ '.' :: List.replicate 51 'b'

lemma chunkLoopF_fifty : ∀ fuel, chunkLoopF loopText 150 100 fuel 50 = none := by
  intro fuel
  induction fuel with
  | zero => rw [chunkLoopF, if_neg (by decide)]
  | succ f ih =>
    rw [chunkLoopF_succ _ _ _ _ _ (by decide)]
    have he : chunkEnd loopText 150 50 - 100 = 50 := by decide
    rw [he, ih]

lemma chunk_text_loopText_none : ∀ fuel, chunk_text loopText 150 100 fuel = none := by
  intro fuel
  rw [chunk_text, if_neg (by decide)]
  cases fuel with
  | zero => rw [chunkLoopF, if_neg (by decide)]
  | succ f =>
    rw [chunkLoopF_succ _ _ _ _ _ (by decide)]
    have he : chunkEnd loopText 150 0 - 100 = 50 := by decide
    rw [he, chunkLoopF_fifty f]

/-- C7 counterexample: an overlap strictly below the chunk size does not
guarantee termination of `chunk_text`.  On `loopText` with
`max_chunk_size = 150` and `overlap = 100 < 150`, the loop revisits the
cursor position 50 forever, so no amount of fuel completes. -/
theorem chunk_text_overlap_lt_size_cex :
    (100 : Int) < 150 ∧
    ¬ ∃ fuel r, chunk_text loopText 150 100 fuel = some r := by
  refine ⟨by norm_num, ?_⟩
  rintro ⟨fuel, r, hr⟩
  rw [chunk_text_loopText_none fuel] at hr
  exact Option.noConfusion hr

lemma pyNormIdx_le (i : Int) (len : Nat) : pyNormIdx i len ≤ len := by
  unfold pyNormIdx
  split
  · omega
  · exact min_le_right _ _

lemma pyNormIdx_eq_of_pos {i : Int} {len : Nat} (h0 : 0 < i)
    (hle : i ≤ (len : Int)) : (pyNormIdx i len : Int) = i := by
  unfold pyNormIdx
  rw [if_neg (by omega)]
  omega

lemma pyRfind_some_bounds {l : List Char} {ch : Char} {a b : Int} {p : Nat}
    (h : pyRfind l ch a b = some p) :
    pyNormIdx a l.length ≤ p ∧ p < pyNormIdx b l.length := by
  unfold pyRfind at h
  have hp := mem_of_getLast?_eq h
  rw [List.mem_filter] at hp
  obtain ⟨hrange, hpred⟩ := hp
  rw [Bool.and_eq_true, decide_eq_true_eq, decide_eq_true_eq] at hpred
  exact ⟨hpred.1, List.mem_range.mp hrange⟩

/-- When the window exceeds the overlap by at least the 200-character
look-back of the period search, every loop iteration strictly advances the
cursor. -/
lemma chunkEnd_progress (text : List Char) (maxSz ov start : Int)
    (hmo : ov + 200 ≤ maxSz) (h0 : 0 ≤ start) :
    start + 1 ≤ chunkEnd text maxSz start - ov := by
  unfold chunkEnd
  by_cases hb : start + maxSz < (text.length : Int)
  · rw [if_pos hb]
    cases hf : pyRfind text '.' (start + maxSz - 200) (start + maxSz) with
    | none =>
      show start + 1 ≤ start + maxSz - ov
      omega
    | some p =>
      obtain ⟨hlo, hhi⟩ := pyRfind_some_bounds hf
      show start + 1 ≤ (p : Int) + 1 - ov
      by_cases hso : start + ov ≤ 0
      · have hp0 : (0 : Int) ≤ (p : Int) := Int.ofNat_nonneg p
        omega
      · have hcut : start + maxSz - 200 ≤ (text.length : Int) ∨
            (text.length : Int) < start + maxSz - 200 := le_or_lt _ _
        rcases hcut with hcut | hcut
        · have hlo' : (pyNormIdx (start + maxSz - 200) text.length : Int) =
              start + maxSz - 200 := pyNormIdx_eq_of_pos (by omega) hcut
          omega
        · have h1 := pyNormIdx_le (start + maxSz) text.length
          have h2 : (text.length : Nat) ≤ pyNormIdx (start + maxSz - 200) text.length := by
            unfold pyNormIdx
            rw [if_neg (by omega)]
            omega
          omega
  · rw [if_neg hb]
    omega

lemma chunkLoopF_some (text : List Char) (maxSz ov : Int)
    (hmo : ov + 200 ≤ maxSz) :
    ∀ (fuel : Nat) (start : Int), 0 ≤ start →
      (text.length : Int) ≤ start + fuel →
      ∃ r, chunkLoopF text maxSz ov fuel start = some r := by
  intro fuel
  induction fuel with
  | zero =>
    intro start h0 hle
    exact ⟨[], by rw [chunkLoopF, if_pos (by simpa using hle)]⟩
  | succ f ih =>
    intro start h0 hle
    by_cases hend : (text.length : Int) ≤ start
    · exact ⟨[], by rw [chunkLoopF, if_pos hend]⟩
    · have hprog := chunkEnd_progress text maxSz ov start hmo h0
      obtain ⟨r, hr⟩ := ih (chunkEnd text maxSz start - ov) (by omega)
        (by push_cast at hle ⊢; omega)
      refine ⟨if pyStrip (pySlice text start (chunkEnd text maxSz start)) = []
        then r
        else pyStrip (pySlice text start (chunkEnd text maxSz start)) :: r, ?_⟩
      rw [chunkLoopF_succ _ _ _ _ _ hend, hr]

/-- C7 (amended): `chunk_text` terminates whenever
`max_chunk_size >= overlap + 200`, i.e. when the window advance always
outruns the 200-character sentence-boundary look-back; `overlap <
max_chunk_size` alone is not sufficient (see the counterexample). -/
theorem chunk_text_terminates_of_gap :
    ∀ (text : List Char) (maxSz ov : Int), ov + 200 ≤ maxSz →
      ∃ fuel r, chunk_text text maxSz ov fuel = some r := by
  intro text maxSz ov hmo
  by_cases hsmall : (text.length : Int) ≤ maxSz
  · exact ⟨0, [text], by rw [chunk_text, if_pos hsmall]⟩
  · obtain ⟨r, hr⟩ := chunkLoopF_some text maxSz ov hmo text.length 0
      (le_refl _) (by push_cast; omega)
    exact ⟨text.length, r, by rw [chunk_text, if_neg hsmall]; exact hr⟩

/-- Witness for the amended C7 theorem at concrete parameters. -/
theorem chunk_text_terminates_witness :
    (1 : Int) + 200 ≤ 300 ∧
    ∃ fuel r, chunk_text ("hello".toList) 300 1 fuel = some r :=
  ⟨by norm_num, chunk_text_terminates_of_gap ("hello".toList) 300 1 (by norm_num)⟩

/-- Metadata dictionaries, modelled as string-keyed association lists. -/
abbrev Meta := List (String × String)

/-- Embedding vectors.  Only identity and positional bookkeeping of vectors
matter to the claims, so components are integers rather than floats. -/
abbrev Emb := List Int

/-- `slack-app/models.py` `DocumentChunk`, as consumed by the ingestion
functions (which re-validate the fields themselves). -/
structure DocumentChunk where
  id : String
  content : String
  metadata : Meta
  chunk_index : Nat
  total_chunks : Nat
deriving DecidableEq

/-- The per-document validity test of `add_documents_batch`:
`if not doc.id or not doc.content: continue` skips exactly the documents
with an empty id or empty content string. -/
def validDoc (d : DocumentChunk) : Bool :=
  !(d.id == "") && !(d.content == "")

/-- `slack-app/cache.py` `get_cached_embedding`: returns `None` for blank
text; otherwise the underlying two-tier lookup, abstracted as a function
from text to an optional vector (covering hits, misses, expiry and
swallowed backend errors). -/
def get_cached_embedding (cache : String → Option Emb) (text : String) :
    Option Emb :=
  if pyBlank text then none else cache text

/-- One entry of the `embedding_indices` bookkeeping list of
`add_documents_batch`: a cached vector (the tuple case) or the text still
to embed (the index case). -/
def itemOf (cache : String → Option Emb) (d : DocumentChunk) : Emb ⊕ String :=
  match get_cached_embedding cache d.content with
  | some e => Sum.inl e
  | none => Sum.inr d.content

/-- Selects the texts awaiting embedding, as
`[text for text in texts_to_embed if text is not None]` does. -/
def inrText : Emb ⊕ String → Option String
  | Sum.inl _ => none
  | Sum.inr t => some t

/-- The batching loop of `rag_module/embeddings.py` `encode_batch`:
process `batch_size` texts at a time, dropping blank texts from each
sub-batch before encoding.  The embedding model is the parameter `f`. -/
def encodeLoop (f : String → Emb) (bs : Nat) : Nat → List String → List Emb
  | 0, _ => []
  | _ + 1, [] => []
  | fuel + 1, t :: ts =>
    (((t :: ts).take bs).filter pyNonBlank).map f ++
      encodeLoop f bs fuel ((t :: ts).drop bs)

/-- Model of `rag_module/embeddings.py` `encode_batch` with its two early
returns (`if not texts` and the all-blank check).  The Python loop
`for i in range(0, len(texts), batch_size)` is fuelled by `texts.length`,
which suffices for any positive batch size (the Python default is 32 and a
falsy batch size is replaced by the configured default, so the batch size
is always positive). -/
def encode_batch (f : String → Emb) (bs : Nat) (texts : List String) :
    List Emb :=
  if texts = [] then []
  else if texts.all (fun t => pyBlank t) then []
  else encodeLoop f bs texts.length texts

/-- The reassembly loop of `add_documents_batch`: cached entries keep their
vector, texts take the next fresh embedding (`new_embeddings[text_index]`);
exhausting the fresh embeddings is the `IndexError` case. -/
def reassemble : List (Emb ⊕ String) → List Emb → Option (List Emb)
  | [], _ => some []
  | Sum.inl e :: rest, ne => (reassemble rest ne).map (fun es => e :: es)
  | Sum.inr _ :: rest, ne =>
    match ne with
    | [] => none
    | e :: ne2 => (reassemble rest ne2).map (fun es => e :: es)

/-- The single `collection.add` call issued for a batch: parallel arrays of
ids, embeddings, document texts and metadata. -/
structure StoreAddCall where
  ids : List String
  embeddings : List Emb
  documents : List String
  metadatas : List Meta
deriving DecidableEq

/-- Outcome of `add_documents_batch`: the store call it issued (if any) and
its return value. -/
structure BatchResult where
  storeAdd : Option StoreAddCall
  ret : Nat
deriving DecidableEq

/-- Model of `rag_module/rag_client.py` `add_documents_batch`.  Invalid
documents are skipped (`validDoc` filter); each valid document becomes a
cached vector or a text to embed (`itemOf`); the non-`None` texts are batch
encoded; the final embedding list is rebuilt positionally (`reassemble`).
A reassembly failure is the caught `IndexError`, turning the whole call
into the `return 0` path with no store mutation; otherwise the single
`collection.add` receives the parallel arrays and the function returns
`len(documents)` - the length of the whole input list.  The store add and
the cache writes for fresh embeddings are modelled as always succeeding;
the top-level `except` and the caught cache errors make the function total
(it never raises). -/
def addDocumentsBatch (f : String → Emb) (cache : String → Option Emb)
    (bs : Nat) (documents : List DocumentChunk) : BatchResult :=
  if documents = [] then ⟨none, 0⟩
  else
    match reassemble ((documents.filter validDoc).map (itemOf cache))
        (encode_batch f bs
          (((documents.filter validDoc).map (itemOf cache)).filterMap inrText)) with
    | none => ⟨none, 0⟩
    | some embs =>
      ⟨some ⟨(documents.filter validDoc).map (fun d => d.id), embs,
        (documents.filter validDoc).map (fun d => d.content),
        (documents.filter validDoc).map (fun d => d.metadata)⟩,
        documents.length⟩

/-- The embedding a valid document ends up with when the batch succeeds:
its cached vector if present, else the freshly computed one. -/
def embedOf (f : String → Emb) (cache : String → Option Emb)
    (d : DocumentChunk) : Emb :=
  (get_cached_embedding cache d.content).getD (f d.content)

/-- The item resolution used to state the reassembly invariant. -/
def resolveItem (f : String → Emb) : Emb ⊕ String → Emb
  | Sum.inl e => e
  | Sum.inr t => f t

/-- With only non-blank texts, the per-batch filter drops nothing and the
batching loop encodes every text in order. -/
lemma encodeLoop_all_nonblank (f : String → Emb) (bs : Nat) (hbs : 1 ≤ bs) :
    ∀ (fuel : Nat) (ts : List String), ts.length ≤ fuel →
      (∀ t ∈ ts, pyNonBlank t = true) → encodeLoop f bs fuel ts = ts.map f := by
  intro fuel
  induction fuel with
  | zero =>
    intro ts hlen _
    rw [List.length_eq_zero.mp (Nat.le_zero.mp hlen)]
    rfl
  | succ n ih =>
    intro ts hlen hnb
    cases ts with
    | nil => rfl
    | cons t ts2 =>
      rw [encodeLoop]
      have hfilter : ((t :: ts2).take bs).filter pyNonBlank = (t :: ts2).take bs :=
        List.filter_eq_self.mpr fun a ha => hnb a (List.mem_of_mem_take ha)
      rw [hfilter]
      have hlen2 : ((t :: ts2).drop bs).length ≤ n := by
        rw [List.length_drop, List.length_cons]
        rw [List.length_cons] at hlen
        omega
      rw [ih ((t :: ts2).drop bs) hlen2
        (fun a ha => hnb a (List.mem_of_mem_drop ha))]
      rw [← List.map_append, List.take_append_drop]

lemma encode_batch_all_nonblank (f : String → Emb) (bs : Nat)
    (texts : List String) (hbs : 1 ≤ bs)
    (hnb : ∀ t ∈ texts, pyNonBlank t = true) :
    encode_batch f bs texts = texts.map f := by
  rw [encode_batch]
  by_cases hte : texts = []
  · rw [if_pos hte, hte]; rfl
  · rw [if_neg hte]
    have hall : texts.all (fun t => pyBlank t) = false := by
      cases texts with
      | nil => exact absurd rfl hte
      | cons t ts =>
        have := hnb t (List.mem_cons_self _ _)
        rw [pyNonBlank] at this
        simp only [List.all_cons, Bool.and_eq_false_iff]
        left
        exact Bool.not_eq_true' .. ▸ this
    rw [hall]
    simp only [Bool.false_eq_true, if_false]
    exact encodeLoop_all_nonblank f bs hbs texts.length texts (le_refl _) hnb

/-- Reassembly with exactly the fresh embeddings of the pending texts
succeeds and resolves every item. -/
lemma reassemble_spec (f : String → Emb) : ∀ items : List (Emb ⊕ String),
    reassemble items ((items.filterMap inrText).map f) =
      some (items.map (resolveItem f)) := by
  intro items
  induction items with
  | nil => rfl
  | cons it rest ih =>
    cases it with
    | inl e =>
      have hfm : (Sum.inl e :: rest : List (Emb ⊕ String)).filterMap inrText =
          rest.filterMap inrText := by
        simp [List.filterMap_cons, inrText]
      rw [hfm]
      show (reassemble rest ((rest.filterMap inrText).map f)).map
        (fun es => e :: es) = _
      rw [ih]
      rfl
    | inr t =>
      have hfm : (Sum.inr t :: rest : List (Emb ⊕ String)).filterMap inrText =
          t :: rest.filterMap inrText := by
        simp [List.filterMap_cons, inrText]
      rw [hfm, List.map_cons]
      show (reassemble rest ((rest.filterMap inrText).map f)).map
        (fun es => f t :: es) = _
      rw [ih]
      rfl

lemma resolveItem_itemOf (f : String → Emb) (cache : String → Option Emb)
    (d : DocumentChunk) :
    resolveItem f (itemOf cache d) = embedOf f cache d := by
  rw [itemOf, embedOf]
  cases get_cached_embedding cache d.content with
  | none => rfl
  | some e => rfl

/-- Every text awaiting embedding is the content of some valid input
document. -/
lemma mem_textsToEmbed {cache : String → Option Emb}
    {documents : List DocumentChunk} {t : String}
    (h : t ∈ ((documents.filter validDoc).map (itemOf cache)).filterMap inrText) :
    ∃ d ∈ documents, validDoc d = true ∧ t = d.content := by
  obtain ⟨it, hit, hin⟩ := List.mem_filterMap.mp h
  obtain ⟨d, hd, hde⟩ := List.mem_map.mp hit
  obtain ⟨hdmem, hdval⟩ := List.mem_filter.mp hd
  refine ⟨d, hdmem, hdval, ?_⟩
  rw [← hde, itemOf] at hin
  cases hcc : get_cached_embedding cache d.content with
  | none =>
    rw [hcc] at hin
    simpa [inrText] using hin.symm
  | some e =>
    rw [hcc] at hin
    simp [inrText] at hin

/-- The success-path characterization of `add_documents_batch`: if every
valid document has non-blank content, nothing is dropped by the encoder,
the reassembly succeeds, the single store call carries the data of exactly
the valid documents in input order, and the return value is the length of
the whole input list. -/
lemma addDocumentsBatch_success (f : String → Emb)
    (cache : String → Option Emb) (bs : Nat) (documents : List DocumentChunk)
    (hbs : 1 ≤ bs)
    (hnb : ∀ d ∈ documents, validDoc d = true → pyNonBlank d.content = true)
    (hne : documents ≠ []) :
    addDocumentsBatch f cache bs documents =
      ⟨some ⟨(documents.filter validDoc).map (fun d => d.id),
             (documents.filter validDoc).map (embedOf f cache),
             (documents.filter validDoc).map (fun d => d.content),
             (documents.filter validDoc).map (fun d => d.metadata)⟩,
       documents.length⟩ := by
  rw [addDocumentsBatch, if_neg hne]
  have htexts : ∀ t ∈ ((documents.filter validDoc).map (itemOf cache)).filterMap inrText,
      pyNonBlank t = true := by
    intro t ht
    obtain ⟨d, hdmem, hdval, hteq⟩ := mem_textsToEmbed ht
    exact hteq ▸ hnb d hdmem hdval
  rw [encode_batch_all_nonblank f bs _ hbs htexts, reassemble_spec f]
  rw [List.map_map]
  have hres : (resolveItem f ∘ itemOf cache) = embedOf f cache := by
    funext d
    exact resolveItem_itemOf f cache d
  rw [hres]

/-- A concrete embedding model for counterexamples and witnesses. -/
def embConst : String → Emb := fun s => [(s.length : Int)]

/-- An always-miss embedding cache. -/
def cacheEmpty : String → Option Emb := fun _ => none

/-- A sample metadata dictionary. -/
def metaSample : Meta := [("title", "T")]

/-- C1 counterexample: a batch with one invalid document (empty id) and one
valid one returns 2 - the length of the whole input list - while the store
call adds only the single valid document, so the dropped invalid entry IS
included in the returned count. -/
theorem add_documents_batch_count_cex :
    (addDocumentsBatch embConst cacheEmpty 32
      [⟨"", "x", metaSample, 0, 1⟩, ⟨"a", "y", metaSample, 0, 1⟩]).ret = 2 ∧
    ∃ call, (addDocumentsBatch embConst cacheEmpty 32
      [⟨"", "x", metaSample, 0, 1⟩, ⟨"a", "y", metaSample, 0, 1⟩]).storeAdd =
        some call ∧ call.ids.length = 1 := by
  exact ⟨rfl, ⟨⟨["a"], [[1]], ["y"], [metaSample]⟩, rfl, rfl⟩⟩

/-- C1 (amended): when every valid document has non-blank content the batch
succeeds, the dropped invalid entries are not added (the store call carries
exactly the valid documents), and the returned count is the length of the
whole input list - invalid entries included - rather than the number of
documents actually added.  The function is total, so it never raises; the
modelled internal failure (reassembly) yields the `return 0` path. -/
theorem add_documents_batch_count (f : String → Emb)
    (cache : String → Option Emb) (bs : Nat) (documents : List DocumentChunk)
    (hbs : 1 ≤ bs)
    (hnb : ∀ d ∈ documents, validDoc d = true → pyNonBlank d.content = true) :
    (addDocumentsBatch f cache bs documents).ret = documents.length ∧
    (documents ≠ [] → ∃ embs,
      (addDocumentsBatch f cache bs documents).storeAdd =
        some ⟨(documents.filter validDoc).map (fun d => d.id), embs,
              (documents.filter validDoc).map (fun d => d.content),
              (documents.filter validDoc).map (fun d => d.metadata)⟩) := by
  by_cases hne : documents = []
  · subst hne
    exact ⟨rfl, fun h => absurd rfl h⟩
  · rw [addDocumentsBatch_success f cache bs documents hbs hnb hne]
    exact ⟨rfl, fun _ => ⟨(documents.filter validDoc).map (embedOf f cache), rfl⟩⟩

/-- Witness for the amended C1 theorem at a concrete batch. -/
theorem add_documents_batch_count_witness :
    (addDocumentsBatch embConst cacheEmpty 32
      [⟨"", "x", metaSample, 0, 1⟩, ⟨"a", "y", metaSample, 0, 1⟩]).ret = 2 :=
  (add_documents_batch_count embConst cacheEmpty 32
    [⟨"", "x", metaSample, 0, 1⟩, ⟨"a", "y", metaSample, 0, 1⟩]
    (by norm_num) (by decide)).1

/-- C2 counterexample: a batch whose documents are all valid, one of them
with whitespace-only (uncached) content.  `encode_batch` silently drops the
blank text, the positional reassembly runs out of fresh embeddings (the
`IndexError`), and no store call is issued at all - the claimed aligned
embedding list is never passed to the store; the batch degrades to the
total-failure path returning 0. -/
theorem add_documents_batch_alignment_cex :
    ([⟨"a", " ", metaSample, 0, 1⟩,
      ⟨"b", "x", metaSample, 0, 1⟩] : List DocumentChunk).all validDoc = true ∧
    addDocumentsBatch embConst cacheEmpty 32
      [⟨"a", " ", metaSample, 0, 1⟩, ⟨"b", "x", metaSample, 0, 1⟩] =
      ⟨none, 0⟩ := by
  exact ⟨rfl, rfl⟩

/-- C2 (amended): provided every valid document has content that is not
blank (whitespace-only content would be dropped by the encoder and abort
the batch), the single store call is issued and its embedding list is
aligned with the ids/contents lists by original document order: position
`j` holds the cached or freshly computed embedding of the content of the
`j`-th valid document. -/
theorem add_documents_batch_alignment (f : String → Emb)
    (cache : String → Option Emb) (bs : Nat) (documents : List DocumentChunk)
    (hbs : 1 ≤ bs)
    (hnb : ∀ d ∈ documents, validDoc d = true → pyNonBlank d.content = true)
    (hne : documents ≠ []) :
    (addDocumentsBatch f cache bs documents).storeAdd =
      some ⟨(documents.filter validDoc).map (fun d => d.id),
            (documents.filter validDoc).map (embedOf f cache),
            (documents.filter validDoc).map (fun d => d.content),
            (documents.filter validDoc).map (fun d => d.metadata)⟩ := by
  rw [addDocumentsBatch_success f cache bs documents hbs hnb hne]

/-- Witness for the amended C2 theorem at a concrete batch: one cached and
one fresh embedding, reassembled in input order. -/
theorem add_documents_batch_alignment_witness :
    (addDocumentsBatch embConst
      (fun s => if s = "y" then some [7] else none) 32
      [⟨"a", "y", metaSample, 0, 1⟩, ⟨"b", "zz", metaSample, 0, 1⟩]).storeAdd =
      some ⟨["a", "b"], [[7], [2]], ["y", "zz"], [metaSample, metaSample]⟩ := by
  have h := add_documents_batch_alignment embConst
    (fun s => if s = "y" then some [7] else none) 32
    [⟨"a", "y", metaSample, 0, 1⟩, ⟨"b", "zz", metaSample, 0, 1⟩]
    (by norm_num) (by decide) (by decide)
  rw [h]
  rfl

/-- Outcome of `add_document`: return value, the `collection.add` call (if
any), the embedding cached (if any), and whether the embedding model was
invoked. -/
structure AddDocResult where
  ret : Bool
  storeAdd : Option (String × Emb × String × Meta)
  cachePut : Option (String × Emb)
  encoded : Bool
deriving DecidableEq

/-- Model of `rag_module/rag_client.py` `add_document`: three early-return
guards (blank id, blank content, falsy metadata), then cached-or-fresh
embedding and a single-element `collection.add`.  The store call and the
cache write are modelled as succeeding; any exception on that path would be
caught and returned as `false`. -/
def add_document (f : String → Emb) (cache : String → Option Emb)
    (document_id content : String) (metadata : Meta) : AddDocResult :=
  if pyBlank document_id then ⟨false, none, none, false⟩
  else if pyBlank content then ⟨false, none, none, false⟩
  else if metadata = [] then ⟨false, none, none, false⟩
  else
    match get_cached_embedding cache content with
    | some e => ⟨true, some (document_id, e, content, metadata), none, false⟩
    | none =>
      ⟨true, some (document_id, f content, content, metadata),
        some (content, f content), true⟩

/-- C8: `add_document` with a blank id, blank content, or empty metadata
returns `false` and performs no store mutation, computes no embedding and
caches nothing. -/
theorem add_document_rejects_invalid (f : String → Emb)
    (cache : String → Option Emb) (document_id content : String)
    (metadata : Meta)
    (h : pyBlank document_id = true ∨ pyBlank content = true ∨ metadata = []) :
    add_document f cache document_id content metadata =
      ⟨false, none, none, false⟩ := by
  rw [add_document]
  rcases h with h | h | h
  · rw [if_pos h]
  · by_cases h1 : pyBlank document_id = true
    · rw [if_pos h1]
    · rw [if_neg h1, if_pos h]
  · by_cases h1 : pyBlank document_id = true
    · rw [if_pos h1]
    · rw [if_neg h1]
      by_cases h2 : pyBlank content = true
      · rw [if_pos h2]
      · rw [if_neg h2, if_pos h]

/-- Witness for C8 at concrete rejected inputs. -/
theorem add_document_rejects_invalid_witness :
    add_document embConst cacheEmpty "  " "hello" metaSample =
      ⟨false, none, none, false⟩ :=
  add_document_rejects_invalid embConst cacheEmpty "  " "hello" metaSample
    (Or.inl (by decide))

/-- Availability and behaviour of the shared cache tier at the moment of a
write: `absent` models `get_redis_client()` returning `None` (Redis
disabled, import failure, or a connection failure swallowed during client
creation); `ok` a reachable Redis whose `setex` succeeds; `failing` a
client whose `setex` raises. -/
inductive RedisState
  | absent
  | ok
  | failing
deriving DecidableEq

/-- `slack-app/models.py` `EmbeddingCacheEntry` (times as abstract ticks). -/
structure EmbeddingCacheEntry where
  text : String
  embedding : Emb
  created_at : Nat
  expires_at : Nat
deriving DecidableEq

/-- The in-process `_memory_cache` dictionary, as an association list whose
most recent write shadows older ones. -/
abbrev MemCache := List (String × EmbeddingCacheEntry)

/-- `slack-app/cache.py` `_generate_cache_key`, with the MD5 hex digest as
an opaque deterministic digest parameter. -/
def generate_cache_key (md5 : String → String) (pre content : String) :
    String :=
  pre ++ ":" ++ md5 content

/-- Model of `slack-app/cache.py` `cache_embedding`.  The guard is
`not text or not text.strip() or embedding is None` (`none` models the
Python `None`); the `EmbeddingCacheEntry` construction happens BEFORE the
`try` block, and its validator rejects an empty vector, so that exception
propagates to the caller (`Except.error`).  Inside the `try`, the Redis
`setex` comes first and the memory write second: a raising `setex` is
caught by the `except`, which skips the memory write. -/
def cache_embedding (md5 : String → String) (redis : RedisState)
    (mem : MemCache) (now ttl : Nat) (text : String)
    (embedding : Option Emb) : Except Unit MemCache :=
  match embedding with
  | none => Except.ok mem
  | some v =>
    if pyBlank text then Except.ok mem
    else if v = [] then Except.error ()
    else if redis = RedisState.failing then Except.ok mem
    else
      Except.ok ((generate_cache_key md5 "embedding" text,
        ⟨text, v, now, now + ttl⟩) :: mem)

/-- A concrete digest stand-in for witnesses. -/
def md5Id : String → String := fun s => s

/-- C3 counterexample: with non-blank text and an EMPTY vector,
`cache_embedding` is not a no-op that swallows the failure - the pydantic
validator fires during entry construction, before the `try` block, and the
exception propagates to the caller. -/
theorem cache_embedding_empty_vector_cex :
    pyBlank "a" = false ∧
    cache_embedding md5Id RedisState.absent [] 0 60 "a" (some []) =
      Except.error () := by
  exact ⟨rfl, rfl⟩

/-- C3 (amended): `cache_embedding` is a no-op when the text is blank or
the vector argument is `None`, and failures during the tier writes are
swallowed; but a non-blank text with an EMPTY vector raises a validation
error that propagates to the caller (the entry is built before the `try`):
the call raises exactly in that case. -/
theorem cache_embedding_guard (md5 : String → String) (redis : RedisState)
    (mem : MemCache) (now ttl : Nat) (text : String)
    (embedding : Option Emb) :
    ((pyBlank text = true ∨ embedding = none) →
      cache_embedding md5 redis mem now ttl text embedding = Except.ok mem) ∧
    (cache_embedding md5 redis mem now ttl text embedding = Except.error () ↔
      pyBlank text = false ∧ embedding = some []) := by
  constructor
  · intro h
    rcases h with h | h
    · cases embedding with
      | none => rfl
      | some v =>
        rw [cache_embedding, if_pos h]
    · rw [h]
      rfl
  · constructor
    · intro h
      cases embedding with
      | none => exact absurd h (by rw [cache_embedding]; intro hc; cases hc)
      | some v =>
        rw [cache_embedding] at h
        by_cases h1 : pyBlank text = true
        · rw [if_pos h1] at h; cases h
        · rw [if_neg h1] at h
          by_cases h2 : v = []
          · exact ⟨Bool.not_eq_true _ ▸ Bool.of_not_eq_true h1, by rw [h2]⟩
          · rw [if_neg h2] at h
            by_cases h3 : redis = RedisState.failing
            · rw [if_pos h3] at h; cases h
            · rw [if_neg h3] at h; cases h
    · rintro ⟨h1, h2⟩
      rw [h2, cache_embedding, if_neg (by rw [h1]; intro hc; cases hc),
        if_pos rfl]

/-- Witness for the amended C3 theorem: blank-text no-op and the
empty-vector error at concrete inputs. -/
theorem cache_embedding_guard_witness :
    cache_embedding md5Id RedisState.ok [] 3 60 " " (some [1]) =
      Except.ok [] ∧
    cache_embedding md5Id RedisState.ok [] 3 60 "q" (some []) =
      Except.error () := by
  constructor
  · exact (cache_embedding_guard md5Id RedisState.ok [] 3 60 " "
      (some [1])).1 (Or.inl (by decide))
  · exact (cache_embedding_guard md5Id RedisState.ok [] 3 60 "q"
      (some [])).2.mpr ⟨by decide, rfl⟩

/-- C4 counterexample: valid text and a non-empty vector, but the Redis
`setex` raises.  The memory write sits after the Redis write in the SAME
`try` block, so the exception skips it: the in-memory cache stays empty and
the fast tier does NOT always receive the entry. -/
theorem cache_embedding_memory_skipped_cex :
    pyBlank "a" = false ∧ ([1] : Emb) ≠ [] ∧
    cache_embedding md5Id RedisState.failing [] 0 60 "a" (some [1]) =
      Except.ok [] := by
  exact ⟨rfl, by decide, rfl⟩

/-- C4 (amended): for non-blank text and a non-empty vector, the entry is
written to the fast in-process tier whenever the shared-tier write does not
raise - i.e. when Redis is absent/disabled (client `None`) or the `setex`
succeeds.  When the `setex` raises, the `except` swallows the error and the
memory write is skipped, leaving the fast tier untouched. -/
theorem cache_embedding_memory_write (md5 : String → String)
    (redis : RedisState) (mem : MemCache) (now ttl : Nat) (text : String)
    (v : Emb) (htext : pyBlank text = false) (hv : v ≠ [])
    (hredis : redis ≠ RedisState.failing) :
    cache_embedding md5 redis mem now ttl text (some v) =
      Except.ok ((generate_cache_key md5 "embedding" text,
        ⟨text, v, now, now + ttl⟩) :: mem) := by
  rw [cache_embedding, if_neg (by rw [htext]; intro hc; cases hc),
    if_neg hv, if_neg hredis]

/-- Witness for the amended C4 theorem: with Redis absent the entry lands
in the in-memory tier under the content-derived key. -/
theorem cache_embedding_memory_write_witness :
    cache_embedding md5Id RedisState.absent [] 5 60 "txt" (some [2]) =
      Except.ok [("embedding:txt", ⟨"txt", [2], 5, 65⟩)] :=
  cache_embedding_memory_write md5Id RedisState.absent [] 5 60 "txt" [2]
    (by decide) (by decide) (by decide)

/-- The final `results` dictionary of `sync-job/sync_data.py`
`run_sync` (the fields the claim concerns; timing fields omitted). -/
structure SyncRunResults where
  confluence_count : Nat
  jira_count : Nat
  total_count : Nat
  success : Bool
  errors : List String
deriving DecidableEq

/-- Model of `SyncManager.run_sync`.  The health-check failure is the only
exception reaching the top-level `except` (each per-source sync is wrapped
in its own `try`, and `cleanup_old_documents` catches internally): that
aborted path appends the error and sets `success = False`.  Otherwise each
enabled source contributes its count (an `Except.ok`) or an error string
(an `Except.error`, the caught per-source exception), and
`success = total_count > 0 or len(errors) == 0`. -/
def run_sync (healthOk syncConf syncJira : Bool)
    (confOutcome jiraOutcome : Except String Nat) : SyncRunResults :=
  if healthOk = false then
    ⟨0, 0, 0, false, ["Sync process failed: RAG system health check failed"]⟩
  else
    let cres : Nat × List String :=
      if syncConf then
        match confOutcome with
        | Except.ok n => (n, [])
        | Except.error e => (0, ["Confluence sync failed: " ++ e])
      else (0, [])
    let jres : Nat × List String :=
      if syncJira then
        match jiraOutcome with
        | Except.ok n => (n, [])
        | Except.error e => (0, ["Jira sync failed: " ++ e])
      else (0, [])
    ⟨cres.1, jres.1, cres.1 + jres.1,
      decide (0 < cres.1 + jres.1) || decide (cres.2 ++ jres.2 = []),
      cres.2 ++ jres.2⟩

/-- C9: on every run that does not abort with a top-level exception (the
health check passes), the success flag is true iff the total processed
count is positive or the accumulated error list is empty; in particular an
all-empty-but-error-free run reports success. -/
theorem run_sync_success_iff (healthOk syncConf syncJira : Bool)
    (confOutcome jiraOutcome : Except String Nat)
    (h : healthOk = true) :
    ((run_sync healthOk syncConf syncJira confOutcome jiraOutcome).success
        = true ↔
      0 < (run_sync healthOk syncConf syncJira confOutcome
          jiraOutcome).total_count ∨
        (run_sync healthOk syncConf syncJira confOutcome
          jiraOutcome).errors = []) := by
  rw [run_sync.eq_def, if_neg (by rw [h]; intro hc; cases hc)]
  simp only [Bool.or_eq_true, decide_eq_true_eq]

/-- Witness for C9: both sources disabled, a healthy run with zero
documents and no errors still reports success. -/
theorem run_sync_success_iff_witness :
    (run_sync true false false (Except.ok 0) (Except.ok 0)).success = true ∧
    (run_sync true false false (Except.ok 0) (Except.ok 0)).total_count = 0 ∧
    (run_sync true false false (Except.ok 0) (Except.ok 0)).errors = [] := by
  refine ⟨?_, rfl, rfl⟩
  exact (run_sync_success_iff true false false (Except.ok 0) (Except.ok 0)
    rfl).mpr (Or.inr rfl)

/-- A message of an LLM conversation, as a string-keyed dictionary. -/
abbrev QueryMsg := List (String × String)

/-- The Python `context or ""` default of `generate_query_hash`: `None` and
falsy strings (only the empty string) become `""`. -/
def pyOrEmpty (context : Option String) : String :=
  match context with
  | none => ""
  | some s => if s = "" then "" else s

/-- Model of `slack-app/cache.py` `generate_query_hash`: MD5 of the
`json.dumps(..., sort_keys=True)` serialization of the messages and the
defaulted context.  Both stdlib functions are deterministic and are taken
as parameters (`md5`, `dumps`); the function under study only controls the
`context or ""` defaulting. -/
def generate_query_hash (md5 : String → String)
    (dumps : List QueryMsg → String → String)
    (messages : List QueryMsg) (context : Option String) : String :=
  md5 (dumps messages (pyOrEmpty context))

/-- C10: an absent context and an empty-string context produce the same
response-cache key for any message list, so their cached responses
collide. -/
theorem generate_query_hash_none_empty_collide (md5 : String → String)
    (dumps : List QueryMsg → String → String) (messages : List QueryMsg) :
    generate_query_hash md5 dumps messages none =
      generate_query_hash md5 dumps messages (some "") := rfl

/-- `slack-app/models.py` `RAGSearchResult`.  Scores are rationals (the
claims concern the `1 - distance` arithmetic and the `[0,1]` range check,
not float rounding). -/
structure RAGSearchResult where
  content : String
  title : String
  url : String
  score : ℚ
  metadata : Meta
  rtype : String
deriving DecidableEq

/-- Python `metadata.get(key, default)` on the association-list model. -/
def metaGet (m : Meta) (key dflt : String) : String :=
  match m.lookup key with
  | some v => v
  | none => dflt

/-- The per-row score of `search`:
`1 - distance if distance is not None else 0.0`. -/
def scoreOf (dopt : Option ℚ) : ℚ :=
  match dopt with
  | some d => 1 - d
  | none => 0

/-- One `RAGSearchResult(...)` construction of the `search` result loop,
including the pydantic score validator (`0 <= score <= 1`); a validation
failure is the per-row caught exception, yielding `none` (row skipped). -/
def buildRow (doc : String) (m : Meta) (dopt : Option ℚ) :
    Option RAGSearchResult :=
  if 0 ≤ scoreOf dopt ∧ scoreOf dopt ≤ 1 then
    some ⟨doc, metaGet m "title" "Untitled", metaGet m "url" "",
      scoreOf dopt, m, metaGet m "type" "unknown"⟩
  else none

/-- Row metadata access of `search`:
`results['metadatas'][0][i] if results['metadatas'][0] else an empty dict`.
An out-of-range index is the uncaught `IndexError` (`none`), which aborts
the whole result assembly. -/
def metaAt (metas : List Meta) (i : Nat) : Option Meta :=
  if metas = [] then some [] else metas.get? i

/-- Row distance access of `search`:
`results['distances'][0][i] if results['distances'] else None`; the store
may omit distances for the whole response (`none`). -/
def distAt (dists : Option (List ℚ)) (i : Nat) : Option (Option ℚ) :=
  match dists with
  | none => some none
  | some l => (l.get? i).map (fun d => some d)

/-- The result-formatting loop of `rag_module/rag_client.py` `search`,
carrying the row index.  A row access failure (`IndexError` outside the
per-row `try`) aborts the whole loop (`none`, the top-level `except`
returning `[]`); a row whose construction fails validation is skipped and
the loop continues. -/
def formatLoop (metas : List Meta) (dists : Option (List ℚ)) :
    List String → Nat → Option (List RAGSearchResult)
  | [], _ => some []
  | doc :: rest, i =>
    match metaAt metas i, distAt dists i with
    | some m, some dopt =>
      match formatLoop metas dists rest (i + 1) with
      | none => none
      | some rs =>
        some (match buildRow doc m dopt with
          | some r => r :: rs
          | none => rs)
    | _, _ => none

/-- The formatted results of a `search` whose store query returned the
given parallel arrays. -/
def formatRows (docs : List String) (metas : List Meta)
    (dists : Option (List ℚ)) : Option (List RAGSearchResult) :=
  formatLoop metas dists docs 0

lemma buildRow_some {doc : String} {m : Meta} {dopt : Option ℚ}
    {r : RAGSearchResult} (h : buildRow doc m dopt = some r) :
    r.score = scoreOf dopt ∧ 0 ≤ r.score ∧ r.score ≤ 1 ∧ r.content = doc := by
  rw [buildRow] at h
  by_cases hc : 0 ≤ scoreOf dopt ∧ scoreOf dopt ≤ 1
  · rw [if_pos hc] at h
    cases h
    exact ⟨rfl, hc.1, hc.2, rfl⟩
  · rw [if_neg hc] at h
    cases h

lemma formatLoop_nil (metas : List Meta) (dists : Option (List ℚ)) (i : Nat) :
    formatLoop metas dists [] i = some [] := rfl

lemma formatLoop_cons_none_meta {metas : List Meta} {dists : Option (List ℚ)}
    {doc : String} {rest : List String} {i : Nat}
    (hm : metaAt metas i = none) :
    formatLoop metas dists (doc :: rest) i = none := by
  rw [formatLoop]
  rw [hm]

lemma formatLoop_cons_none_dist {metas : List Meta} {dists : Option (List ℚ)}
    {doc : String} {rest : List String} {i : Nat} {m : Meta}
    (hm : metaAt metas i = some m) (hd : distAt dists i = none) :
    formatLoop metas dists (doc :: rest) i = none := by
  rw [formatLoop]
  rw [hm, hd]

lemma formatLoop_cons_rec_none {metas : List Meta} {dists : Option (List ℚ)}
    {doc : String} {rest : List String} {i : Nat} {m : Meta} {dopt : Option ℚ}
    (hm : metaAt metas i = some m) (hd : distAt dists i = some dopt)
    (hrec : formatLoop metas dists rest (i + 1) = none) :
    formatLoop metas dists (doc :: rest) i = none := by
  rw [formatLoop]
  rw [hm, hd, hrec]

lemma formatLoop_cons_eval {metas : List Meta} {dists : Option (List ℚ)}
    {doc : String} {rest : List String} {i : Nat} {m : Meta} {dopt : Option ℚ}
    {rs2 : List RAGSearchResult}
    (hm : metaAt metas i = some m) (hd : distAt dists i = some dopt)
    (hrec : formatLoop metas dists rest (i + 1) = some rs2) :
    formatLoop metas dists (doc :: rest) i =
      some (match buildRow doc m dopt with
        | some r => r :: rs2
        | none => rs2) := by
  rw [formatLoop]
  rw [hm, hd, hrec]

/-- Every emitted result comes from some row, built by `buildRow` on that
row's document, metadata and distance. -/
lemma formatLoop_mem_spec (metas : List Meta) (dists : Option (List ℚ)) :
    ∀ (ds : List String) (i : Nat) (rs : List RAGSearchResult),
    formatLoop metas dists ds i = some rs →
    ∀ r ∈ rs, ∃ j doc m dopt, ds.get? j = some doc ∧
      metaAt metas (i + j) = some m ∧ distAt dists (i + j) = some dopt ∧
      buildRow doc m dopt = some r := by
  intro ds
  induction ds with
  | nil =>
    intro i rs h r hr
    rw [formatLoop_nil] at h
    cases h
    simp at hr
  | cons doc0 rest ih =>
    intro i rs h r hr
    cases hm : metaAt metas i with
    | none => rw [formatLoop_cons_none_meta hm] at h; cases h
    | some m1 =>
      cases hd : distAt dists i with
      | none => rw [formatLoop_cons_none_dist hm hd] at h; cases h
      | some dopt1 =>
        cases hrec : formatLoop metas dists rest (i + 1) with
        | none => rw [formatLoop_cons_rec_none hm hd hrec] at h; cases h
        | some rs2 =>
          rw [formatLoop_cons_eval hm hd hrec] at h
          injection h with h2
          cases hb : buildRow doc0 m1 dopt1 with
          | none =>
            rw [hb] at h2
            subst h2
            obtain ⟨j, doc2, m2, dopt2, hj1, hj2, hj3, hj4⟩ :=
              ih (i + 1) rs2 hrec r hr
            refine ⟨j + 1, doc2, m2, dopt2, hj1, ?_, ?_, hj4⟩
            · have he : i + (j + 1) = i + 1 + j := by omega
              rw [he]; exact hj2
            · have he : i + (j + 1) = i + 1 + j := by omega
              rw [he]; exact hj3
          | some r0 =>
            rw [hb] at h2
            subst h2
            rcases List.mem_cons.mp hr with hr1 | hr1
            · subst hr1
              exact ⟨0, doc0, m1, dopt1, rfl, by rw [Nat.add_zero]; exact hm,
                by rw [Nat.add_zero]; exact hd, hb⟩
            · obtain ⟨j, doc2, m2, dopt2, hj1, hj2, hj3, hj4⟩ :=
                ih (i + 1) rs2 hrec r hr1
              refine ⟨j + 1, doc2, m2, dopt2, hj1, ?_, ?_, hj4⟩
              · have he : i + (j + 1) = i + 1 + j := by omega
                rw [he]; exact hj2
              · have he : i + (j + 1) = i + 1 + j := by omega
                rw [he]; exact hj3

/-- Every row whose construction succeeds appears in the output: a skipped
row does not abort the remaining rows. -/
lemma formatLoop_complete (metas : List Meta) (dists : Option (List ℚ)) :
    ∀ (ds : List String) (i : Nat) (rs : List RAGSearchResult),
    formatLoop metas dists ds i = some rs →
    ∀ (j : Nat) (doc : String) (m : Meta) (dopt : Option ℚ)
      (r : RAGSearchResult),
      ds.get? j = some doc → metaAt metas (i + j) = some m →
      distAt dists (i + j) = some dopt → buildRow doc m dopt = some r →
      r ∈ rs := by
  intro ds
  induction ds with
  | nil =>
    intro i rs h j doc m dopt r hj _ _ _
    simp at hj
  | cons doc0 rest ih =>
    intro i rs h j doc m dopt r hj hm2 hd2 hb2
    cases hm : metaAt metas i with
    | none => rw [formatLoop_cons_none_meta hm] at h; cases h
    | some m1 =>
      cases hd : distAt dists i with
      | none => rw [formatLoop_cons_none_dist hm hd] at h; cases h
      | some dopt1 =>
        cases hrec : formatLoop metas dists rest (i + 1) with
        | none => rw [formatLoop_cons_rec_none hm hd hrec] at h; cases h
        | some rs2 =>
          rw [formatLoop_cons_eval hm hd hrec] at h
          injection h with h2
          cases j with
          | zero =>
            have hdoc : doc0 = doc := by
              rw [List.get?_cons_zero] at hj
              exact Option.some.inj hj
            have hmEq : m1 = m := by
              rw [Nat.add_zero] at hm2
              exact Option.some.inj (hm.symm.trans hm2)
            have hdEq : dopt1 = dopt := by
              rw [Nat.add_zero] at hd2
              exact Option.some.inj (hd.symm.trans hd2)
            subst hdoc
            subst hmEq
            subst hdEq
            rw [hb2] at h2
            subst h2
            exact List.mem_cons_self _ _
          | succ j2 =>
            have hj2 : rest.get? j2 = some doc := by
              rw [List.get?_cons_succ] at hj
              exact hj
            have he : i + (j2 + 1) = i + 1 + j2 := by omega
            rw [he] at hm2 hd2
            have hmem := ih (i + 1) rs2 hrec j2 doc m dopt r hj2 hm2 hd2 hb2
            cases hb : buildRow doc0 m1 dopt1 with
            | none =>
              rw [hb] at h2
              subst h2
              exact hmem
            | some r0 =>
              rw [hb] at h2
              subst h2
              exact List.mem_cons_of_mem _ hmem

/-- C5: for every successful result assembly, each returned result has
score `1 - distance` when the store supplied a distance for its row and
`0.0` otherwise, every returned score lies in `[0, 1]` (the pydantic
validator guarantees it), and a row that fails validation is skipped
without aborting the rest (every successfully built row appears in the
output). -/
theorem search_results_spec (docs : List String) (metas : List Meta)
    (dists : Option (List ℚ)) (rs : List RAGSearchResult)
    (h : formatRows docs metas dists = some rs) :
    (∀ r ∈ rs, 0 ≤ r.score ∧ r.score ≤ 1) ∧
    (∀ r ∈ rs, ∃ j doc m dopt, docs.get? j = some doc ∧
      metaAt metas j = some m ∧ distAt dists j = some dopt ∧
      r.score = scoreOf dopt ∧ r.content = doc) ∧
    (∀ (j : Nat) (doc : String) (m : Meta) (dopt : Option ℚ)
        (r : RAGSearchResult),
      docs.get? j = some doc → metaAt metas j = some m →
      distAt dists j = some dopt → buildRow doc m dopt = some r →
      r ∈ rs) := by
  rw [formatRows] at h
  refine ⟨?_, ?_, ?_⟩
  · intro r hr
    obtain ⟨j, doc, m, dopt, _, _, _, hb⟩ :=
      formatLoop_mem_spec metas dists docs 0 rs h r hr
    obtain ⟨_, hb2, hb3, _⟩ := buildRow_some hb
    exact ⟨hb2, hb3⟩
  · intro r hr
    obtain ⟨j, doc, m, dopt, h1, h2, h3, hb⟩ :=
      formatLoop_mem_spec metas dists docs 0 rs h r hr
    obtain ⟨hs, _, _, hc⟩ := buildRow_some hb
    rw [Nat.zero_add] at h2 h3
    exact ⟨j, doc, m, dopt, h1, h2, h3, hs, hc⟩
  · intro j doc m dopt r h1 h2 h3 hb
    refine formatLoop_complete metas dists docs 0 rs h j doc m dopt r h1 ?_ ?_ hb
    · rwa [Nat.zero_add]
    · rwa [Nat.zero_add]

/-- Witness for C5 at a concrete store response: distances `[0, 3]` give
scores `1` (kept) and `-2` (validation failure, row skipped; the first row
still appears). -/
theorem search_results_spec_witness :
    ∃ rs, formatRows ["d1", "d2"] [] (some [0, 3]) = some rs ∧
      (∀ r ∈ rs, 0 ≤ r.score ∧ r.score ≤ 1) ∧ rs.length = 1 := by
  have hb1 : buildRow "d1" [] (some 0) =
      some ⟨"d1", "Untitled", "", 1, [], "unknown"⟩ := by
    rw [buildRow, if_pos (by norm_num [scoreOf])]
    norm_num [scoreOf, metaGet]
  have hb2 : buildRow "d2" [] (some 3) = none := by
    rw [buildRow, if_neg]
    intro hcon
    norm_num [scoreOf] at hcon
  have hm0 : metaAt [] 0 = some [] := rfl
  have hm1 : metaAt [] 1 = some [] := rfl
  have hd0 : distAt (some [0, 3]) 0 = some (some 0) := rfl
  have hd1 : distAt (some [0, 3]) 1 = some (some 3) := rfl
  have h1 : formatLoop [] (some [0, 3]) ["d2"] 1 = some [] := by
    rw [formatLoop_cons_eval hm1 hd1 (formatLoop_nil [] (some [0, 3]) 2), hb2]
  have h : formatRows ["d1", "d2"] [] (some [0, 3]) =
      some [⟨"d1", "Untitled", "", 1, [], "unknown"⟩] := by
    rw [formatRows, formatLoop_cons_eval hm0 hd0 h1, hb1]
  exact ⟨_, h, (search_results_spec ["d1", "d2"] [] (some [0, 3])
    [⟨"d1", "Untitled", "", 1, [], "unknown"⟩] h).1, rfl⟩
